import Mathlib

/-!
Verification of the algorithmic core of SimpleVolumeViewer
(src/img_block_viewer.py) against its natural-language specification.

The Python functions are shallowly embedded as executable Lean definitions:
numpy integer arrays become lists of integers, Python dicts become ordered
association lists, floating-point quantities become rationals (the claims
under study concern only comparisons and exact ratios, which the rationals
represent faithfully), and in-place mutation becomes explicit state passing.
Each embedded definition is named after the source function it models.
-/

/-! ## SkeletonDecomposer: SplitSWCTree (src/img_block_viewer.py lines 470-503)

The source stores the tree as an (n, 3) integer array whose first two columns
are (id, parent_id); the type column and the coordinate block are irrelevant
to the decomposition and are omitted.  We model the array as a list of
(id, parent_id) rows.
-/

/-- Relabelling step of SplitSWCTree.  The source builds a scatter array
arr_full with arr_full[id] = row index for every id appearing in column 0 and
arr_full[-1] = -1, then maps both columns through it.  Under the input
invariants (distinct nonnegative ids, parents drawn from the ids or the
sentinel -1) this sends an id to the index of its row and -1 to -1, which is
what we compute directly.  (For an id absent from the table the numpy scatter
array would yield the junk value 0; findIdx yields the out-of-range index n.
Such inputs violate the invariants and are outside every claim.) -/
def relabelId (tr : List (Int × Int)) (pid : Int) : Int :=
  if pid = -1 then -1 else Int.ofNat (tr.findIdx (fun r => r.1 == pid))

/-- Column of relabelled parent indices, tr_idx[:,1] after the scatter map. -/
def parentIdxList (tr : List (Int × Int)) : List Int :=
  tr.map (fun r => relabelId tr r.2)

/-- Child-count histogram of the source:
n_child,_ = np.histogram(tr_idx[1:,1], bins=np.arange(n_id)).
The histogram input skips ROW 0 (not the root, though they coincide on sorted
input), and the bin sequence 0,1,...,n_id-1 yields only n_id-1 bins; numpy
closes the LAST bin on the right, so bin n_id-2 counts parents equal to
n_id-2 or n_id-1, and node n_id-1 has no bin of its own. -/
def nChildList (tr : List (Int × Int)) : List Nat :=
  let pidx := (parentIdxList tr).drop 1
  let nbins := tr.length - 1
  (List.range nbins).map (fun b =>
    (pidx.filter (fun p =>
      p == Int.ofNat b || (decide (b = nbins - 1) && p == Int.ofNat (b + 1)))).length)

/-- Python list indexing with negative-index wrap-around: l[i] reads
l[len l + i] for -len l <= i < 0.  Out-of-range access raises IndexError in
Python; it returns none here and is unreachable on the sorted well-formed
inputs the decomposition is run on. -/
def pyGetNat (l : List Nat) (i : Int) : Option Nat :=
  if 0 ≤ i then l.get? i.toNat else l.get? (l.length - (-i).toNat)

/-- Python indexing into the relabelled parent column (tr_idx[i, 1]). -/
def pyParent (pidx : List Int) (i : Int) : Int :=
  (if 0 ≤ i then pidx.get? i.toNat else pidx.get? (pidx.length - (-i).toNat)).getD (-1)

/-- Upward walk of SplitSWCTree:
while n_child[i] == 1 and i != -1: filament.append(i); i = tr_idx[i, 1].
Returns the grown filament and the index at which the loop stopped.  The walk
follows parent links, so on an acyclic tree it takes fewer than n steps; the
fuel argument (instantiated with the node count) only serves Lean's
termination checker and is never exhausted on such inputs. -/
def walkLoop (pidx : List Int) (nch : List Nat) :
    Nat → Int → List Int → (List Int × Int)
  | 0, i, fil => (fil, i)
  | fuel + 1, i, fil =>
    if pyGetNat nch i == some 1 && !(i == -1) then
      walkLoop pidx nch fuel (pyParent pidx i) (fil ++ [i])
    else
      (fil, i)

/-- One path segment of SplitSWCTree: start at terminal eid, walk upward,
append the stopping node unless it is the sentinel, and reverse the filament
into root-to-leaf order. -/
def processOf (pidx : List Int) (nch : List Nat) (eid : Nat) : List Int :=
  let i1 := pyParent pidx (Int.ofNat eid)
  let r := walkLoop pidx nch pidx.length i1 [Int.ofNat eid]
  let fil := if r.2 == -1 then r.1 else r.1 ++ [r.2]
  fil.reverse

/-- SplitSWCTree (src lines 470-503): relabel ids to row indices, build the
child-count histogram, take every index whose count differs from 1 as a
terminal (id_bounds = np.nonzero(n_child-1)[0]) and emit one upward-walk
segment per terminal.  Output segments hold relabelled row indices. -/
def SplitSWCTree (tr : List (Int × Int)) : List (List Int) :=
  let pidx := parentIdxList tr
  let nch := nChildList tr
  let id_bounds := (List.range (tr.length - 1)).filter (fun b => !(nch.getD b 0 == 1))
  id_bounds.map (fun eid => processOf pidx nch eid)

/-- Well-formedness of an SWC table in the sense assumed by the source
(tr is well and sorted, one tree): nonempty, distinct positive ids, the
first row is the unique root (parent_id = -1), and every later row's parent
is the id of an earlier row.  This implies the claim invariants: exactly one
root, no cycles, every non-root parent present. -/
def WellSortedTree (tr : List (Int × Int)) : Prop :=
  tr ≠ [] ∧ (tr.map Prod.fst).Nodup ∧ (∀ r ∈ tr, 1 ≤ r.1) ∧
  (tr.headD (0, 0)).2 = -1 ∧
  ∀ k ∈ List.range tr.length, 1 ≤ k →
    ((tr.getD k (0, 0)).2 ∈ (tr.take k).map Prod.fst)

instance (tr : List (Int × Int)) : Decidable (WellSortedTree tr) := by
  unfold WellSortedTree; infer_instance

/-- The five-node example tree of the specification:
root 1 with children 2 and 3, node 2 branching into leaves 4 and 5.
Rows are (id, parent_id), sorted with the root first. -/
def exTr : List (Int × Int) := [(1, -1), (2, 1), (3, 1), (4, 2), (5, 2)]

/-- Number of output segments containing a given (relabelled) node index. -/
def segCountOf (segs : List (List Int)) (k : Int) : Nat :=
  (segs.filter (fun s => s.contains k)).length

/-- Every node index of the table appears in at least one output segment. -/
def coversAllNodes (tr : List (Int × Int)) (segs : List (List Int)) : Prop :=
  ∀ k ∈ List.range tr.length, ∃ s ∈ segs, Int.ofNat k ∈ s

instance (tr : List (Int × Int)) (segs : List (List Int)) :
    Decidable (coversAllNodes tr segs) := by
  unfold coversAllNodes; infer_instance

/-- Consecutive index pairs of all output segments (in root-to-leaf order,
so each pair is (parent index, child index)). -/
def segEdges (segs : List (List Int)) : List (Int × Int) :=
  (segs.map (fun s => s.zip s.tail)).flatten

/-- Multiset of (node, parent) edges of the input tree in relabelled row
indices, the root's sentinel pseudo-edge excluded. -/
def treeEdges (tr : List (Int × Int)) : List (Int × Int) :=
  (List.range tr.length).filterMap (fun k =>
    let p := (parentIdxList tr).getD k (-1)
    if p = -1 then none else some (Int.ofNat k, p))

/-- C1: on the well-formed five-node example tree, SplitSWCTree returns the
segments [[0],[0,1],[0,2],[1,3]] (row indices; ids 1..5 map to rows 0..4),
and row 4 (id 5, a leaf) appears in NO segment, refuting the claim that every
tree node appears in at least one output segment.  The cause is the
off-by-one histogram np.histogram(..., bins=np.arange(n_id)), which yields
n_id-1 bins and leaves the last row without a child-count bin, so a leaf in
the last row never starts a walk. -/
theorem splitSWCTree_drops_last_leaf :
    WellSortedTree exTr ∧
    SplitSWCTree exTr = [[0], [0, 1], [0, 2], [1, 3]] ∧
    ∀ s ∈ SplitSWCTree exTr, (4 : Int) ∉ s := by
  decide

/-- C2 counterexample: on the example tree the decomposition does NOT return
exactly 3 segments covering all 5 nodes with each leaf in exactly one
segment: it returns 4 segments and leaves row 4 (id 5) uncovered. -/
theorem splitSWCTree_example_claim_false :
    ¬ ((SplitSWCTree exTr).length = 3 ∧ coversAllNodes exTr (SplitSWCTree exTr) ∧
       segCountOf (SplitSWCTree exTr) 2 = 1 ∧ segCountOf (SplitSWCTree exTr) 3 = 1 ∧
       segCountOf (SplitSWCTree exTr) 4 = 1) := by
  decide

/-- C2 amended: on the example tree SplitSWCTree returns exactly the 4
segments [[0],[0,1],[0,2],[1,3]] (a degenerate single-node segment for the
branching root plus one segment per classified terminal).  They cover rows
0..3 only; row 4 (leaf id 5) is dropped by the histogram off-by-one.  The
root (row 0) lies in 3 segments and the branch node (row 1) in 2; the
covered leaves (rows 2 and 3) lie in exactly 1 each, and row 4 in 0. -/
theorem splitSWCTree_example_eval :
    (SplitSWCTree exTr).length = 4 ∧
    SplitSWCTree exTr = [[0], [0, 1], [0, 2], [1, 3]] ∧
    (∀ k ∈ List.range 4, ∃ s ∈ SplitSWCTree exTr, Int.ofNat k ∈ s) ∧
    segCountOf (SplitSWCTree exTr) 0 = 3 ∧
    segCountOf (SplitSWCTree exTr) 1 = 2 ∧
    segCountOf (SplitSWCTree exTr) 2 = 1 ∧
    segCountOf (SplitSWCTree exTr) 3 = 1 ∧
    segCountOf (SplitSWCTree exTr) 4 = 0 := by
  decide

/-- C3: on the well-formed five-node example the multiset of consecutive
index pairs of the output segments is {(0,1),(0,2),(1,3)} (parent, child)
while the tree's (node, parent) edge multiset is {(1,0),(2,0),(3,1),(4,1)}:
the edge between rows 4 and 1 (ids 5 and 2) is missing from the output, so
the claimed round-trip equality fails.  Same root cause as C1. -/
theorem splitSWCTree_edge_multiset_mismatch :
    WellSortedTree exTr ∧
    segEdges (SplitSWCTree exTr) = [(0, 1), (0, 2), (1, 3)] ∧
    treeEdges exTr = [(1, 0), (2, 0), (3, 1), (4, 1)] ∧
    (Multiset.ofList ((segEdges (SplitSWCTree exTr)).map Prod.swap)) ≠
      Multiset.ofList (treeEdges exTr) := by
  decide

/-! ## NameAllocator: GetNonconflitName (src/img_block_viewer.py lines 273-279)

The source tries the bare prefix first and then prefix + ".%.3d" % i for
i = 1, 2, ... until the candidate is absent from the name set.  We embed the
"%.3d" decimal formatting from first principles so that injectivity of the
candidate names (and hence termination of the loop within a computable fuel
bound) can be proved.
-/

/-- Decimal digits of a natural number, most significant first.
natDigits 0 = [0], matching printf's rendering of zero. -/
def natDigitsAux : Nat → Nat → List Nat
  | 0, n => [n % 10]
  | fuel + 1, n => if n < 10 then [n] else natDigitsAux fuel (n / 10) ++ [n % 10]

/-- Decimal digits of a natural number, most significant first; natDigits 0 =
[0], matching printf.  The fuel of the auxiliary function is structural only
(one decimal division per step always terminates); fuel n is enough. -/
def natDigits (n : Nat) : List Nat :=
  natDigitsAux n n

/-- Numeric value of a most-significant-first digit list. -/
def undigits (l : List Nat) : Nat :=
  l.foldl (fun a d => 10 * a + d) 0

theorem undigits_natDigitsAux :
    ∀ fuel n, n ≤ fuel → undigits (natDigitsAux fuel n) = n := by
  intro fuel
  induction fuel with
  | zero =>
      intro n hn
      have : n = 0 := by omega
      subst this
      rfl
  | succ fuel ih =>
      intro n hn
      by_cases h : n < 10
      · simp [natDigitsAux, h, undigits]
      · have hdiv : n / 10 ≤ fuel := by
          have := Nat.div_lt_self (by omega : 0 < n) (by omega : 1 < 10)
          omega
        simp only [natDigitsAux, h, if_false]
        unfold undigits at ih ⊢
        rw [List.foldl_append, ih (n / 10) hdiv]
        simp only [List.foldl_cons, List.foldl_nil]
        omega

theorem natDigitsAux_lt_ten :
    ∀ fuel n, ∀ d ∈ natDigitsAux fuel n, d < 10 := by
  intro fuel
  induction fuel with
  | zero =>
      intro n d hd
      simp only [natDigitsAux, List.mem_singleton] at hd
      omega
  | succ fuel ih =>
      intro n d hd
      by_cases h : n < 10
      · simp only [natDigitsAux, h, if_true, List.mem_singleton] at hd
        omega
      · simp only [natDigitsAux, h, if_false, List.mem_append,
          List.mem_singleton] at hd
        rcases hd with hd | rfl
        · exact ih (n / 10) d hd
        · omega

theorem undigits_natDigits (n : Nat) : undigits (natDigits n) = n :=
  undigits_natDigitsAux n n (le_refl n)

theorem natDigits_lt_ten (n : Nat) : ∀ d ∈ natDigits n, d < 10 :=
  natDigitsAux_lt_ten n n

/-- The "%.3d" formatting of the source: decimal digits left-padded with
zeros to a minimum width of three characters. -/
def fmtInt3 (i : Nat) : String :=
  String.mk (List.replicate (3 - (natDigits i).length) '0' ++
    (natDigits i).map Nat.digitChar)

/-- Numeric value read back from a character list of decimal digits
(padding zeros included). -/
def unfmtChars (l : List Char) : Nat :=
  l.foldl (fun a c => 10 * a + (c.toNat - 48)) 0

theorem toNat_digitChar (d : Nat) (h : d < 10) : (Nat.digitChar d).toNat = 48 + d := by
  interval_cases d <;> rfl

theorem foldl_unfmt_replicate_zero (k : Nat) :
    List.foldl (fun a c => 10 * a + (c.toNat - 48)) 0 (List.replicate k '0') = 0 := by
  induction k with
  | zero => rfl
  | succ k ih => simpa [List.replicate_succ] using ih

theorem foldl_unfmt_map_digitChar (ds : List Nat) (hds : ∀ d ∈ ds, d < 10) :
    ∀ a, List.foldl (fun x c => 10 * x + (c.toNat - 48)) a (ds.map Nat.digitChar) =
      List.foldl (fun x d => 10 * x + d) a ds := by
  induction ds with
  | nil => intro a; rfl
  | cons d ds ih =>
      intro a
      have hd : d < 10 := hds d (by simp)
      simp only [List.map_cons, List.foldl_cons, toNat_digitChar d hd]
      rw [ih (fun x hx => hds x (by simp [hx]))]
      congr 1
      omega

theorem unfmt_fmtInt3 (i : Nat) : unfmtChars (fmtInt3 i).data = i := by
  unfold fmtInt3 unfmtChars
  simp only [String.data]
  rw [List.foldl_append, foldl_unfmt_replicate_zero,
    foldl_unfmt_map_digitChar (natDigits i) (natDigits_lt_ten i)]
  exact undigits_natDigits i

theorem fmtInt3_injective : Function.Injective fmtInt3 := by
  intro a b h
  have := congrArg (fun s => unfmtChars s.data) h
  simpa [unfmt_fmtInt3] using this

/-- Candidate name tried by the source loop: prefix + ".%.3d" % i. -/
def candName (pfx : String) (i : Nat) : String :=
  pfx ++ "." ++ fmtInt3 i

theorem candName_injective (pfx : String) : Function.Injective (candName pfx) := by
  intro a b h
  apply fmtInt3_injective
  unfold candName at h
  have hd := congrArg String.data h
  simp only [String.data_append] at hd
  have := List.append_cancel_left hd
  cases hfa : fmtInt3 a with
  | mk la =>
      cases hfb : fmtInt3 b with
      | mk lb =>
          rw [hfa, hfb] at this
          simpa [hfa, hfb] using congrArg String.mk this

/-- Search loop of GetNonconflitName: try candName pfx i, i+1, ... while the
candidate is taken.  The fuel (instantiated with one more than the size of
the name set) only serves the termination checker; exists_free_candName
shows it is never exhausted. -/
def GetNCAux (pfx : String) (names : List String) : Nat → Nat → String
  | 0, i => candName pfx i
  | fuel + 1, i =>
      if candName pfx i ∈ names then GetNCAux pfx names fuel (i + 1)
      else candName pfx i

/-- GetNonconflitName (src lines 273-279): return the prefix when it is
free, otherwise the first free candidate prefix + ".%.3d" % i for i >= 1. -/
def GetNonconflitName (pfx : String) (names : List String) : String :=
  if pfx ∈ names then GetNCAux pfx names (names.length + 1) 1 else pfx

theorem exists_free_candName (pfx : String) (names : List String) :
    ∃ j, 1 ≤ j ∧ j ≤ names.length + 1 ∧ candName pfx j ∉ names := by
  by_contra hcon
  push_neg at hcon
  have hsub : (Finset.Icc 1 (names.length + 1)).image (candName pfx) ⊆
      names.toFinset := by
    intro s hs
    obtain ⟨j, hj, rfl⟩ := Finset.mem_image.mp hs
    obtain ⟨h1, h2⟩ := Finset.mem_Icc.mp hj
    exact List.mem_toFinset.mpr (hcon j h1 h2)
  have hcard : ((Finset.Icc 1 (names.length + 1)).image (candName pfx)).card =
      names.length + 1 := by
    rw [Finset.card_image_of_injective _ (candName_injective pfx)]
    simp [Nat.card_Icc]
  have hle := Finset.card_le_card hsub
  rw [hcard] at hle
  have := names.toFinset_card_le
  omega

theorem GetNCAux_spec (pfx : String) (names : List String) :
    ∀ fuel i, (∃ j, i ≤ j ∧ j < i + fuel ∧ candName pfx j ∉ names) →
    ∃ j, i ≤ j ∧ candName pfx j ∉ names ∧
      (∀ m, i ≤ m → m < j → candName pfx m ∈ names) ∧
      GetNCAux pfx names fuel i = candName pfx j := by
  intro fuel
  induction fuel with
  | zero =>
      intro i ⟨j, h1, h2, _⟩
      omega
  | succ fuel ih =>
      intro i ⟨j, hij, hlt, hfree⟩
      by_cases hi : candName pfx i ∈ names
      · have hne : i ≠ j := by
          intro e
          exact hfree (e ▸ hi)
        obtain ⟨j2, hij2, hfree2, hmin2, heq2⟩ :=
          ih (i + 1) ⟨j, by omega, by omega, hfree⟩
        refine ⟨j2, by omega, hfree2, ?_, ?_⟩
        · intro m hm1 hm2
          rcases Nat.eq_or_lt_of_le hm1 with he | hgt
          · exact he ▸ hi
          · exact hmin2 m hgt hm2
        · rw [GetNCAux, if_pos hi]
          exact heq2
      · refine ⟨i, le_refl i, hi, ?_, ?_⟩
        · intro m hm1 hm2; omega
        · rw [GetNCAux, if_neg hi]

/-- C7: GetNonconflitName returns the prefix itself when the prefix is free;
otherwise it returns prefix + "." + counter, zero-padded to 3 digits, for the
smallest positive counter whose candidate name is free; and on the three
concrete examples of the specification it returns "x", "x.001" and "x.002".
Termination within the computable fuel bound is part of the proof
(exists_free_candName). -/
theorem GetNonconflitName_spec (pfx : String) (names : List String) :
    (pfx ∉ names → GetNonconflitName pfx names = pfx) ∧
    (pfx ∈ names → ∃ j, 1 ≤ j ∧ candName pfx j ∉ names ∧
      (∀ m, 1 ≤ m → m < j → candName pfx m ∈ names) ∧
      GetNonconflitName pfx names = candName pfx j) ∧
    GetNonconflitName "x" [] = "x" ∧
    GetNonconflitName "x" ["x"] = "x.001" ∧
    GetNonconflitName "x" ["x", "x.001"] = "x.002" := by
  refine ⟨?_, ?_, by decide, by decide, by decide⟩
  · intro h
    unfold GetNonconflitName
    rw [if_neg h]
  · intro h
    obtain ⟨j, hj1, hj2, hj3⟩ := exists_free_candName pfx names
    obtain ⟨j2, hij2, hfree2, hmin2, heq2⟩ :=
      GetNCAux_spec pfx names (names.length + 1) 1 ⟨j, hj1, by omega, hj3⟩
    refine ⟨j2, hij2, hfree2, hmin2, ?_⟩
    unfold GetNonconflitName
    rw [if_pos h]
    exact heq2

/-- Witness for C7 at a concrete input: "x" collides in {"x", "x.001"} and
the returned name is the candidate with the smallest free counter. -/
theorem GetNonconflitName_spec_witness :
    ("x" : String) ∈ ["x", "x.001"] ∧
    (∃ j, 1 ≤ j ∧ candName "x" j ∉ ["x", "x.001"] ∧
      (∀ m, 1 ≤ m → m < j → candName "x" m ∈ ["x", "x.001"]) ∧
      GetNonconflitName "x" ["x", "x.001"] = candName "x" j) :=
  ⟨by decide, (GetNonconflitName_spec "x" ["x", "x.001"]).2.1 (by decide)⟩

/-! ## ConfigMerger: MergeFullDict (src/img_block_viewer.py lines 281-302)

Python values reachable from a JSON configuration are modelled by PyVal;
Python dicts become ordered association lists (insertion-ordered, as in
CPython).  DeepUpdate mutates d_contain in place and may raise: we thread the
state explicitly and return (final dict, number of warnings, error flag).
The error flag models the TypeError CPython raises when DeepUpdate recurses
into a non-dict base value with a nonempty dict override (item assignment or
string-indexing on a non-dict fails on the first key; no mutation of that
value occurs before the exception, and an empty dict override makes the loop
body never run, so no error).
-/

inductive PyVal where
  | pystr (s : String)
  | pyint (n : Int)
  | pyfloat (q : ℚ)
  | pybool (b : Bool)
  | pynone
  | pylist (l : List PyVal)
  | pydict (entries : List (String × PyVal))

inductive PyType where
  | tstr | tint | tfloat | tbool | tnone | tlist | tdict
deriving DecidableEq

/-- Python's type() as far as == comparisons between configuration values are
concerned (bool and int are distinct types under type() equality). -/
def pytype : PyVal → PyType
  | .pystr _ => .tstr
  | .pyint _ => .tint
  | .pyfloat _ => .tfloat
  | .pybool _ => .tbool
  | .pynone => .tnone
  | .pylist _ => .tlist
  | .pydict _ => .tdict

/-- Python dict read access (first matching key; keys are unique in real
dicts, and all operations below preserve that). -/
def dlookup : List (String × PyVal) → String → Option PyVal
  | [], _ => none
  | (k, v) :: rest, key => if k = key then some v else dlookup rest key

/-- Python dict write d[key] = v: overwrite in place preserving position,
else append at the end (CPython insertion order). -/
def dset : List (String × PyVal) → String → PyVal → List (String × PyVal)
  | [], key, v => [(key, v)]
  | (k, w) :: rest, key, v =>
      if k = key then (k, v) :: rest else (k, w) :: dset rest key v

/-- DeepUpdate of MergeFullDict.  Iterates the update dict in order: absent
keys are added verbatim; a dict value over a dict base merges recursively; a
dict value over a non-dict base raises TypeError (the error flag) unless the
dict is empty; a non-dict value overwrites when Python types agree and is
discarded with a warning otherwise. -/
def deepUpdate : List (String × PyVal) → List (String × PyVal) →
    List (String × PyVal) × Nat × Bool
  | dc, [] => (dc, 0, false)
  | dc, (key, v) :: rest =>
    match dlookup dc key with
    | none => deepUpdate (dset dc key v) rest
    | some old =>
      match v with
      | .pydict dv =>
        match old with
        | .pydict ov =>
          let r := deepUpdate ov dv
          let dc2 := dset dc key (.pydict r.1)
          if r.2.2 then (dc2, r.2.1, true)
          else
            let r2 := deepUpdate dc2 rest
            (r2.1, r.2.1 + r2.2.1, r2.2.2)
        | _ => if dv.isEmpty then deepUpdate dc rest else (dc, 0, true)
      | _ =>
        if pytype old = pytype v then deepUpdate (dset dc key v) rest
        else
          let r := deepUpdate dc rest
          (r.1, r.2.1 + 1, r.2.2)
termination_by dc du => sizeOf du

/-- MergeFullDict (src lines 281-302): runs DeepUpdate on the two dicts and
returns the (mutated) base together with the warning count and error flag of
the traversal. -/
def MergeFullDict (dc du : List (String × PyVal)) :
    List (String × PyVal) × Nat × Bool :=
  deepUpdate dc du

/-- Value reachable in a nested configuration at a key path. -/
def lookupPath : PyVal → List String → Option PyVal
  | v, [] => some v
  | .pydict d, key :: ks =>
    (match dlookup d key with
     | some v => lookupPath v ks
     | none => none)
  | _, _ :: _ => none

/-- Value-level type preservation: every path present in a keeps a value of
the same Python type in b. -/
def ValTypesPreserved (a b : PyVal) : Prop :=
  ∀ π u, lookupPath a π = some u →
    ∃ w, lookupPath b π = some w ∧ pytype w = pytype u

/-- Dict-level type preservation. -/
def TypesPreserved (a b : List (String × PyVal)) : Prop :=
  ValTypesPreserved (.pydict a) (.pydict b)

theorem valTypesPreserved_refl (a : PyVal) : ValTypesPreserved a a :=
  fun π u h => ⟨u, h, rfl⟩

theorem typesPreserved_refl (a : List (String × PyVal)) : TypesPreserved a a :=
  valTypesPreserved_refl _

theorem typesPreserved_trans {a b c : List (String × PyVal)}
    (h1 : TypesPreserved a b) (h2 : TypesPreserved b c) : TypesPreserved a c := by
  intro π u hu
  obtain ⟨w, hw, hty⟩ := h1 π u hu
  obtain ⟨w2, hw2, hty2⟩ := h2 π w hw
  exact ⟨w2, hw2, hty2.trans hty⟩

theorem dlookup_dset (d : List (String × PyVal)) (key k2 : String) (v : PyVal) :
    dlookup (dset d key v) k2 = if k2 = key then some v else dlookup d k2 := by
  induction d with
  | nil =>
      simp only [dset, dlookup]
      by_cases h : k2 = key
      · subst h; simp
      · rw [if_neg (fun e => h e.symm), if_neg h]
  | cons e rest ih =>
      obtain ⟨k, w⟩ := e
      by_cases hk : k = key
      · subst hk
        simp only [dset, if_pos rfl, dlookup]
        by_cases h2 : k2 = k
        · subst h2; simp
        · have h2b : ¬ k = k2 := fun e => h2 e.symm
          simp [h2, h2b]
      · simp only [dset, if_neg hk, dlookup]
        by_cases h2 : k = k2
        · subst h2
          simp [hk]
        · simp [h2, ih]

theorem typesPreserved_dset_new (dc : List (String × PyVal)) (key : String)
    (v : PyVal) (hnew : dlookup dc key = none) :
    TypesPreserved dc (dset dc key v) := by
  intro π u hu
  match π with
  | [] =>
      simp only [lookupPath] at hu
      cases hu
      exact ⟨.pydict (dset dc key v), rfl, rfl⟩
  | k2 :: ks =>
      simp only [lookupPath] at hu ⊢
      rw [dlookup_dset]
      by_cases h2 : k2 = key
      · subst h2
        rw [hnew] at hu
        simp at hu
      · rw [if_neg h2]
        exact ⟨u, hu, rfl⟩

theorem typesPreserved_dset_update (dc : List (String × PyVal)) (key : String)
    (old v : PyVal) (hold : dlookup dc key = some old)
    (hv : ValTypesPreserved old v) :
    TypesPreserved dc (dset dc key v) := by
  intro π u hu
  match π with
  | [] =>
      simp only [lookupPath] at hu
      cases hu
      exact ⟨.pydict (dset dc key v), rfl, rfl⟩
  | k2 :: ks =>
      simp only [lookupPath] at hu ⊢
      rw [dlookup_dset]
      by_cases h2 : k2 = key
      · subst h2
        rw [hold] at hu
        rw [if_pos rfl]
        exact hv ks u hu
      · rw [if_neg h2]
        exact ⟨u, hu, rfl⟩

theorem valTypesPreserved_same_nondict (old v : PyVal)
    (hty : pytype old = pytype v) (hnd : pytype v ≠ PyType.tdict) :
    ValTypesPreserved old v := by
  intro π u hu
  match π with
  | [] =>
      simp only [lookupPath] at hu
      cases hu
      exact ⟨v, by simp [lookupPath], hty.symm⟩
  | k2 :: ks =>
      cases old with
      | pydict d => exact absurd hty.symm hnd
      | pystr s => simp [lookupPath] at hu
      | pyint n => simp [lookupPath] at hu
      | pyfloat q => simp [lookupPath] at hu
      | pybool b => simp [lookupPath] at hu
      | pynone => simp [lookupPath] at hu
      | pylist l => simp [lookupPath] at hu

theorem pytype_ne_tdict (v : PyVal) (h : ∀ ov, v = PyVal.pydict ov → False) :
    pytype v ≠ PyType.tdict := by
  cases v with
  | pydict d => exact absurd rfl (h d)
  | pystr s => simp [pytype]
  | pyint n => simp [pytype]
  | pyfloat q => simp [pytype]
  | pybool b => simp [pytype]
  | pynone => simp [pytype]
  | pylist l => simp [pytype]

theorem deepUpdate_typesPreserved (dc du : List (String × PyVal)) :
    TypesPreserved dc (deepUpdate dc du).1 := by
  induction dc, du using deepUpdate.induct with
  | case1 dc =>
      simpa [deepUpdate] using typesPreserved_refl dc
  | case2 dc key v rest hnone ih =>
      have heq : deepUpdate dc ((key, v) :: rest) = deepUpdate (dset dc key v) rest := by
        rw [deepUpdate]
        simp [hnone]
      rw [heq]
      exact typesPreserved_trans (typesPreserved_dset_new dc key v hnone) ih
  | case3 dc key rest ov ov1 r herr hdl ihsub =>
      have herr2 : (deepUpdate ov1 ov).2.2 = true := herr
      have heq : deepUpdate dc ((key, PyVal.pydict ov) :: rest) =
          (dset dc key (PyVal.pydict (deepUpdate ov1 ov).1),
            (deepUpdate ov1 ov).2.1, true) := by
        rw [deepUpdate]
        simp [hdl, herr2]
      rw [heq]
      exact typesPreserved_dset_update dc key _ _ hdl ihsub
  | case4 dc key rest ov ov1 r dc2 hok hdl ihsub ihrest =>
      have hok2 : ¬ (deepUpdate ov1 ov).2.2 = true := hok
      have ihrest2 : TypesPreserved (dset dc key (PyVal.pydict (deepUpdate ov1 ov).1))
          (deepUpdate (dset dc key (PyVal.pydict (deepUpdate ov1 ov).1)) rest).1 := ihrest
      have heq : deepUpdate dc ((key, PyVal.pydict ov) :: rest) =
          ((deepUpdate (dset dc key (PyVal.pydict (deepUpdate ov1 ov).1)) rest).1,
            (deepUpdate ov1 ov).2.1 +
              (deepUpdate (dset dc key (PyVal.pydict (deepUpdate ov1 ov).1)) rest).2.1,
            (deepUpdate (dset dc key (PyVal.pydict (deepUpdate ov1 ov).1)) rest).2.2) := by
        rw [deepUpdate]
        simp [hdl, hok2]
      rw [heq]
      exact typesPreserved_trans (typesPreserved_dset_update dc key _ _ hdl ihsub) ihrest2
  | case5 dc key rest old hold ov hemp hnotdict ih =>
      have heq : deepUpdate dc ((key, PyVal.pydict ov) :: rest) = deepUpdate dc rest := by
        rw [deepUpdate]
        rcases old with s | n | q | b | _ | l | d
        · simp [hold, hemp]
        · simp [hold, hemp]
        · simp [hold, hemp]
        · simp [hold, hemp]
        · simp [hold, hemp]
        · simp [hold, hemp]
        · exact absurd rfl (hnotdict d)
      rw [heq]
      exact ih
  | case6 dc key rest old hold ov hemp hnotdict =>
      have heq : deepUpdate dc ((key, PyVal.pydict ov) :: rest) = (dc, 0, true) := by
        rw [deepUpdate]
        rcases old with s | n | q | b | _ | l | d
        · simp [hold, hemp]
        · simp [hold, hemp]
        · simp [hold, hemp]
        · simp [hold, hemp]
        · simp [hold, hemp]
        · simp [hold, hemp]
        · exact absurd rfl (hnotdict d)
      rw [heq]
      exact typesPreserved_refl dc
  | case7 dc key v rest old hold hty hnotdict ih =>
      have heq : deepUpdate dc ((key, v) :: rest) = deepUpdate (dset dc key v) rest := by
        rw [deepUpdate]
        rcases v with s | n | q | b | _ | l | d
        · simp [hold, hty]
        · simp [hold, hty]
        · simp [hold, hty]
        · simp [hold, hty]
        · simp [hold, hty]
        · simp [hold, hty]
        · exact absurd rfl (hnotdict d)
      rw [heq]
      refine typesPreserved_trans (typesPreserved_dset_update dc key old v hold ?_) ih
      exact valTypesPreserved_same_nondict old v hty (pytype_ne_tdict v hnotdict)
  | case8 dc key v rest old hold hty hnotdict ih =>
      have heq : (deepUpdate dc ((key, v) :: rest)).1 = (deepUpdate dc rest).1 := by
        rw [deepUpdate]
        rcases v with s | n | q | b | _ | l | d
        · simp [hold, hty]
        · simp [hold, hty]
        · simp [hold, hty]
        · simp [hold, hty]
        · simp [hold, hty]
        · simp [hold, hty]
        · exact absurd rfl (hnotdict d)
      rw [heq]
      exact ih

/-- Example base configuration: two leaves of different types. -/
def exBase : List (String × PyVal) :=
  [("a", PyVal.pystr "s"), ("b", PyVal.pyint 1)]

/-- Example override: a (nonempty) dict for the string leaf "a", then an
unproblematic int update for "b". -/
def exUpd : List (String × PyVal) :=
  [("a", PyVal.pydict [("x", PyVal.pyint 1)]), ("b", PyVal.pyint 2)]

/-- C6 counterexample: when the override supplies a nonempty dict for the
existing non-dict leaf "a", DeepUpdate raises a TypeError on the first key
(the error flag is set) instead of discarding the value with a warning, and
traversal does NOT continue: the later key "b" keeps its old value 1 rather
than being merged to 2 as the claim requires. -/
theorem mergeFullDict_dict_over_leaf_aborts :
    ¬ ((MergeFullDict exBase exUpd).2.2 = false ∧
       dlookup (MergeFullDict exBase exUpd).1 "b" = some (PyVal.pyint 2)) := by
  have heval : MergeFullDict exBase exUpd = (exBase, 0, true) := by
    simp [MergeFullDict, exBase, exUpd, deepUpdate, dlookup]
  rintro ⟨h1, h2⟩
  rw [heval] at h1
  simp at h1

/-- C6 amended: merging never changes the Python type of any value already
reachable in the base (every base path keeps a value of the same type, even
in runs that abort with a TypeError), and a non-dict override of mismatched
type is discarded with a warning while merging continues; but an override
that supplies a nonempty dict for an existing non-dict leaf raises a
TypeError that aborts the traversal (no warning, later keys unprocessed)
rather than being discarded with a warning. -/
theorem mergeFullDict_type_invariant :
    (∀ dc du, TypesPreserved dc (MergeFullDict dc du).1) ∧
    MergeFullDict exBase exUpd = (exBase, 0, true) ∧
    MergeFullDict [("a", PyVal.pystr "s")]
        [("a", PyVal.pyint 2), ("c", PyVal.pyint 3)] =
      ([("a", PyVal.pystr "s"), ("c", PyVal.pyint 3)], 1, false) := by
  refine ⟨fun dc du => deepUpdate_typesPreserved dc du, ?_, ?_⟩
  · simp [MergeFullDict, exBase, exUpd, deepUpdate, dlookup]
  · simp [MergeFullDict, deepUpdate, dlookup, dset, pytype]

/-- Witness for C6 at concrete input: the string leaf "a" survives an int
override attempt with its type intact. -/
theorem mergeFullDict_type_invariant_witness :
    lookupPath (PyVal.pydict [("a", PyVal.pystr "s")]) ["a"] =
      some (PyVal.pystr "s") ∧
    ∃ w, lookupPath (PyVal.pydict (MergeFullDict [("a", PyVal.pystr "s")]
        [("a", PyVal.pyint 2)]).1) ["a"] = some w ∧
      pytype w = pytype (PyVal.pystr "s") :=
  ⟨by simp [lookupPath, dlookup],
   mergeFullDict_type_invariant.1 [("a", PyVal.pystr "s")] [("a", PyVal.pyint 2)]
     ["a"] (PyVal.pystr "s") (by simp [lookupPath, dlookup])⟩

/-! ## TransferFunctionScaler: UpdatePropertyOTFScale / UpdatePropertyCTFScale /
GetColorScale / SetColorScale (src/img_block_viewer.py lines 505-560)

A vtkVolumeProperty is modelled by its two current control-point curves (the
vtkPiecewiseFunction nodes (x, value, midpoint, sharpness) and the
vtkColorTransferFunction nodes (x, r, g, b, midpoint, sharpness)) together
with the authored configuration (prop_conf) and the optional ref_prop
back-reference to the source property's authored configuration (only the
referenced prop_conf is ever read by the scaler).  Positions and values are
rationals; the claims concern exact restoration and exact ratios, which the
float implementation realises up to rounding.
-/

structure AuthoredConf where
  otf_points : List (ℚ × ℚ)
  ctf_points : List (ℚ × ℚ × ℚ × ℚ)
deriving DecidableEq

structure ObjProp where
  otf : List (ℚ × ℚ × ℚ × ℚ)
  ctf : List (ℚ × ℚ × ℚ × ℚ × ℚ × ℚ)
  prop_conf : AuthoredConf
  ref_prop : Option AuthoredConf
deriving DecidableEq

attribute [ext] ObjProp

/-- The authored configuration the scaler reads: obj_prop.ref_prop.prop_conf
when the ref_prop back-reference exists, else obj_prop.prop_conf. -/
def authoredOf (p : ObjProp) : AuthoredConf :=
  p.ref_prop.getD p.prop_conf

/-- Per-node update loop shared by both scalers:
for k in range(pf.GetSize()): v[k][0] = s * otf_v[k][0]; pf.SetNodeValue(k, v[k]).
Each current node keeps its non-position fields and has its position replaced
by s times the AUTHORED position.  The source loop indexes the authored list
by the current curve's size (IndexError if the authored list is shorter);
zipWith coincides with it whenever the lengths agree, which every theorem
below assumes. -/
def scaleNodes {α β : Type} (s : ℚ) (cur : List (ℚ × α)) (auth : List (ℚ × β)) :
    List (ℚ × α) :=
  List.zipWith (fun node a => (s * a.1, node.2)) cur auth

/-- UpdatePropertyOTFScale (src lines 505-522).  With otf_s = None it is a
pure query returning (authored AddPoint rows, current node values); with a
scale it rewrites the current opacity curve from the authored positions.
The returned state models the in-place mutation of the property. -/
def UpdatePropertyOTFScale (p : ObjProp) (otf_s : Option ℚ) :
    ObjProp × Option (List (ℚ × ℚ) × List (ℚ × ℚ × ℚ × ℚ)) :=
  let otf_v := (authoredOf p).otf_points
  match otf_s with
  | none => (p, some (otf_v, p.otf))
  | some s => ({ p with otf := scaleNodes s p.otf otf_v }, none)

/-- UpdatePropertyCTFScale (src lines 524-544), the color-curve analogue. -/
def UpdatePropertyCTFScale (p : ObjProp) (ctf_s : Option ℚ) :
    ObjProp × Option (List (ℚ × ℚ × ℚ × ℚ) × List (ℚ × ℚ × ℚ × ℚ × ℚ × ℚ)) :=
  let ctf_v := (authoredOf p).ctf_points
  match ctf_s with
  | none => (p, some (ctf_v, p.ctf))
  | some s => ({ p with ctf := scaleNodes s p.ctf ctf_v }, none)

/-- Position of the last control point, v[-1][0] in the source (reading
v[-1] of an empty curve raises IndexError in Python; the default 0 is
unreachable under the nonzero-final-position precondition of the claims). -/
def lastPos {α : Type} (l : List (ℚ × α)) : ℚ :=
  ((l.map Prod.fst).getLast?).getD 0

/-- GetColorScale (src lines 546-550): queries both curves with scale None
and returns (current last position / authored last position) for the opacity
and the color curve.  The returned state models that the queries leave the
property as is. -/
def GetColorScale (p : ObjProp) : ObjProp × (ℚ × ℚ) :=
  let o := UpdatePropertyOTFScale p none
  let c := UpdatePropertyCTFScale o.1 none
  let ov := o.2.getD ([], [])
  let cv := c.2.getD ([], [])
  (c.1, (lastPos ov.2 / lastPos ov.1, lastPos cv.2 / lastPos cv.1))

/-- SetColorScale (src lines 552-560) with a scalar scale: rescales both
curves by the same factor. -/
def SetColorScale (p : ObjProp) (s : ℚ) : ObjProp :=
  (UpdatePropertyCTFScale (UpdatePropertyOTFScale p (some s)).1 (some s)).1

theorem scaleNodes_map_fst {α β : Type} (s : ℚ) (cur : List (ℚ × α))
    (auth : List (ℚ × β)) (h : cur.length = auth.length) :
    (scaleNodes s cur auth).map Prod.fst = auth.map (fun a => s * a.1) := by
  induction cur generalizing auth with
  | nil =>
      cases auth with
      | nil => rfl
      | cons a t => simp at h
  | cons n cur ih =>
      cases auth with
      | nil => simp at h
      | cons a t =>
          simp only [scaleNodes, List.zipWith_cons_cons, List.map_cons]
          refine congrArg _ ?_
          exact ih t (by simpa using h)

theorem scaleNodes_scaleNodes {α β : Type} (k j : ℚ) (cur : List (ℚ × α))
    (auth : List (ℚ × β)) :
    scaleNodes k (scaleNodes j cur auth) auth = scaleNodes k cur auth := by
  induction cur generalizing auth with
  | nil => cases auth <;> rfl
  | cons n cur ih =>
      cases auth with
      | nil => rfl
      | cons a t =>
          simp only [scaleNodes, List.zipWith_cons_cons]
          exact congrArg _ (ih t)

theorem scaleNodes_length {α β : Type} (s : ℚ) (cur : List (ℚ × α))
    (auth : List (ℚ × β)) (h : cur.length = auth.length) :
    (scaleNodes s cur auth).length = cur.length := by
  simp [scaleNodes, h]

theorem lastPos_scaleNodes {α β : Type} (s : ℚ) (cur : List (ℚ × α))
    (auth : List (ℚ × β)) (h : cur.length = auth.length) :
    lastPos (scaleNodes s cur auth) = s * lastPos auth := by
  unfold lastPos
  rw [scaleNodes_map_fst s cur auth h]
  have : auth.map (fun a => s * a.1) = (auth.map Prod.fst).map (fun x => s * x) := by
    simp
  rw [this, List.getLast?_map]
  cases (auth.map Prod.fst).getLast? with
  | none => simp
  | some x => simp

theorem authoredOf_setScale (p : ObjProp) (s : ℚ) :
    authoredOf (SetColorScale p s) = authoredOf p := rfl

theorem setColorScale_otf (p : ObjProp) (s : ℚ) :
    (SetColorScale p s).otf = scaleNodes s p.otf (authoredOf p).otf_points := rfl

theorem setColorScale_ctf (p : ObjProp) (s : ℚ) :
    (SetColorScale p s).ctf = scaleNodes s p.ctf (authoredOf p).ctf_points := rfl

theorem getColorScale_eval (p : ObjProp) :
    (GetColorScale p).2 =
      (lastPos p.otf / lastPos (authoredOf p).otf_points,
       lastPos p.ctf / lastPos (authoredOf p).ctf_points) := rfl

/-- C5: with the authored final control-point positions nonzero (the spec's
caller precondition) and the current curves in sync with the authored point
count, (1) rescaling with factor 1.0 restores every control-point position of
both curves to exactly the authored original, (2) after rescaling with k > 0
GetColorScale returns k for both curves exactly, (3) rescaling after an
arbitrary earlier rescale j gives the same property state as rescaling the
pristine property — positions are always recomputed from the authored
original, never from the current curve — and (4) hence GetColorScale also
returns k after a prior rescale. -/
theorem transfer_rescale_spec (p : ObjProp) (k j : ℚ) (hk : 0 < k)
    (hlo : p.otf.length = (authoredOf p).otf_points.length)
    (hlc : p.ctf.length = (authoredOf p).ctf_points.length)
    (hno : lastPos (authoredOf p).otf_points ≠ 0)
    (hnc : lastPos (authoredOf p).ctf_points ≠ 0) :
    (UpdatePropertyOTFScale p (some 1)).1.otf.map Prod.fst =
      (authoredOf p).otf_points.map Prod.fst ∧
    (UpdatePropertyCTFScale p (some 1)).1.ctf.map Prod.fst =
      (authoredOf p).ctf_points.map Prod.fst ∧
    (GetColorScale (SetColorScale p k)).2 = (k, k) ∧
    SetColorScale (SetColorScale p j) k = SetColorScale p k ∧
    (GetColorScale (SetColorScale (SetColorScale p j) k)).2 = (k, k) := by
  have ha : (UpdatePropertyOTFScale p (some 1)).1.otf.map Prod.fst =
      (authoredOf p).otf_points.map Prod.fst := by
    show (scaleNodes 1 p.otf (authoredOf p).otf_points).map Prod.fst = _
    rw [scaleNodes_map_fst 1 p.otf (authoredOf p).otf_points hlo]
    simp
  have hb : (UpdatePropertyCTFScale p (some 1)).1.ctf.map Prod.fst =
      (authoredOf p).ctf_points.map Prod.fst := by
    show (scaleNodes 1 p.ctf (authoredOf p).ctf_points).map Prod.fst = _
    rw [scaleNodes_map_fst 1 p.ctf (authoredOf p).ctf_points hlc]
    simp
  have hc : (GetColorScale (SetColorScale p k)).2 = (k, k) := by
    rw [getColorScale_eval, setColorScale_otf, setColorScale_ctf,
      authoredOf_setScale, lastPos_scaleNodes k p.otf _ hlo,
      lastPos_scaleNodes k p.ctf _ hlc,
      mul_div_cancel_right₀ k hno, mul_div_cancel_right₀ k hnc]
  have hd : SetColorScale (SetColorScale p j) k = SetColorScale p k := by
    have ho : (SetColorScale (SetColorScale p j) k).otf = (SetColorScale p k).otf := by
      rw [setColorScale_otf (SetColorScale p j) k, setColorScale_otf p j,
        setColorScale_otf p k, authoredOf_setScale p j]
      exact scaleNodes_scaleNodes k j p.otf (authoredOf p).otf_points
    have hcc : (SetColorScale (SetColorScale p j) k).ctf = (SetColorScale p k).ctf := by
      rw [setColorScale_ctf (SetColorScale p j) k, setColorScale_ctf p j,
        setColorScale_ctf p k, authoredOf_setScale p j]
      exact scaleNodes_scaleNodes k j p.ctf (authoredOf p).ctf_points
    exact ObjProp.ext ho hcc rfl rfl
  exact ⟨ha, hb, hc, hd, by rw [hd]; exact hc⟩

/-- Example volume property: authored opacity curve with 2 control points and
color curve with 3, current curves in their authored state, no ref_prop. -/
def exProp : ObjProp :=
  { otf := [(0, 0, 1/2, 0), (100, 4/5, 1/2, 0)],
    ctf := [(0, 0, 0, 0, 1/2, 0), (50, 1, 0, 0, 1/2, 0), (100, 0, 1, 1, 1/2, 0)],
    prop_conf :=
      { otf_points := [(0, 0), (100, 4/5)],
        ctf_points := [(0, 0, 0, 0), (50, 1, 0, 0), (100, 0, 1, 1)] },
    ref_prop := none }

/-- Witness for C5 at the example property with scales k = 2, j = 3. -/
theorem transfer_rescale_spec_witness :
    (0 : ℚ) < 2 ∧
    (GetColorScale (SetColorScale exProp 2)).2 = (2, 2) ∧
    SetColorScale (SetColorScale exProp 3) 2 = SetColorScale exProp 2 :=
  ⟨by norm_num,
   (transfer_rescale_spec exProp 2 3 (by norm_num) rfl rfl (by decide) (by decide)).2.2.1,
   (transfer_rescale_spec exProp 2 3 (by norm_num) rfl rfl (by decide) (by decide)).2.2.2.1⟩

/-- C10: querying the scale is a pure read: UpdatePropertyOTFScale and
UpdatePropertyCTFScale with scale None, and hence GetColorScale, return the
property state unchanged (current curves and stored authored configuration
alike), while reporting the authored rows and current node values. -/
theorem transfer_query_is_pure (p : ObjProp) :
    (UpdatePropertyOTFScale p none).1 = p ∧
    (UpdatePropertyCTFScale p none).1 = p ∧
    (GetColorScale p).1 = p ∧
    (UpdatePropertyOTFScale p none).2 = some ((authoredOf p).otf_points, p.otf) ∧
    (UpdatePropertyCTFScale p none).2 = some ((authoredOf p).ctf_points, p.ctf) :=
  ⟨rfl, rfl, rfl, rfl, rfl⟩

/-! ## Point cloud index: PointSetHolder (src/img_block_viewer.py lines 670-680)

The holder keeps a (3, N) float array (modelled as the list of its N column
points) and a range_map dict initialised to {} in __init__.  AddPoints
appends the new columns with np.append(..., axis=1); the name argument is
accepted but — per the TODO in the source — never recorded: range_map is
never written anywhere in the program. -/

structure PointSetHolder where
  points : List (ℚ × ℚ × ℚ)
  range_map : List (String × (Nat × Nat))

/-- PointSetHolder.AddPoints (src lines 675-677): append the given points in
order after the existing ones; range_map is untouched. -/
def PointSetHolder.AddPoints (h : PointSetHolder) (ps : List (ℚ × ℚ × ℚ))
    (name : String) : PointSetHolder :=
  { h with points := h.points ++ ps }

/-- C8 counterexample: adding one point under the name "a" to a fresh holder
leaves range_map empty, so the claimed name-to-range mapping for "a" (which
would have to cover index range [0, 1)) does not exist. -/
theorem addPoints_range_map_missing :
    ¬ ∃ lo hi, ("a", (lo, hi)) ∈
      (PointSetHolder.AddPoints ⟨[], []⟩ [(1, 2, 3)] "a").range_map := by
  rintro ⟨lo, hi, h⟩
  simp [PointSetHolder.AddPoints] at h

/-- C8 amended: AddPoints extends the flat point sequence by exactly the
given points, in order, after the existing ones, and leaves the name-to-range
mapping unchanged (the name argument is ignored; populating range_map is an
explicit TODO in the source). -/
theorem addPoints_appends_only (h : PointSetHolder) (ps : List (ℚ × ℚ × ℚ))
    (name : String) :
    (h.AddPoints ps name).points = h.points ++ ps ∧
    (h.AddPoints ps name).range_map = h.range_map :=
  ⟨rfl, rfl⟩

/-! ## SceneGraph removal: GUIControl.RemoveObjects (src lines 1347-1355)

Only the scene-object registry matters for the claim; it is modelled as an
association list from name to an opaque handle.  For a missing name the
method logs a warning and returns.  For a present name it looks the object
up, fetches the main renderer, and then executes re.RemoveActor(obj): the
module has no import of re and no local binding re (the variable one line up
is ren), so CPython raises NameError BEFORE reaching the del statement; the
exception leaves the registry unchanged.  The Bool of the result records
whether the call raised. -/

structure GUIControl where
  scene_objects : List (String × Nat)
deriving DecidableEq

/-- GUIControl.RemoveObjects (src lines 1347-1355): warning-and-return for a
missing name (no error), NameError at re.RemoveActor for a present name —
in both cases the registry survives unchanged and the del never runs. -/
def GUIControl.RemoveObjects (s : GUIControl) (name : String) : GUIControl × Bool :=
  if (s.scene_objects.map Prod.fst).contains name then (s, true) else (s, false)

/-- C9: RemoveObjects never changes the registry — in particular a present
name is NOT removed: on the failing input {"obj1": handle} the call raises
(NameError: name re is not defined) with the entry still present afterwards,
while a missing name only logs a warning and returns without error. -/
theorem removeObjects_raises_and_keeps_entry :
    (∀ s name, (GUIControl.RemoveObjects s name).1 = s) ∧
    (GUIControl.RemoveObjects ⟨[("obj1", 0)]⟩ "obj1").2 = true ∧
    ("obj1", 0) ∈ (GUIControl.RemoveObjects ⟨[("obj1", 0)]⟩ "obj1").1.scene_objects ∧
    GUIControl.RemoveObjects ⟨[("obj1", 0)]⟩ "nope" = (⟨[("obj1", 0)]⟩, false) := by
  refine ⟨?_, by decide, by decide, by decide⟩
  intro s name
  unfold GUIControl.RemoveObjects
  split <;> rfl

/-! ## RayPicker: PointPicker.PickAt (src/img_block_viewer.py lines 610-668)

The picker state holds the point cloud (columns of a (3, N) array, here a
list of 3-vectors), the 3x3 rotation block and translation column of the
camera's model-view matrix, the screen dimensions and the precomputed
pixel-to-view scale.  All arithmetic is rational; the source compares
angle_dist = dist / t against the tolerance 0.01 and minimises it, which for
the surviving points (t > 0, distances nonnegative) is order-equivalent to
comparing the squared quantities, so the executable embedding works with
dist^2 and dist^2/t^2 and the claim theorem states the genuine angular
distance over the reals. -/

abbrev Vec3 := ℚ × ℚ × ℚ

def vadd (a b : Vec3) : Vec3 := (a.1 + b.1, a.2.1 + b.2.1, a.2.2 + b.2.2)

def vsub (a b : Vec3) : Vec3 := (a.1 - b.1, a.2.1 - b.2.1, a.2.2 - b.2.2)

def vsmul (t : ℚ) (a : Vec3) : Vec3 := (t * a.1, t * a.2.1, t * a.2.2)

def vneg (a : Vec3) : Vec3 := (-a.1, -a.2.1, -a.2.2)

def vdot (a b : Vec3) : ℚ := a.1 * b.1 + a.2.1 * b.2.1 + a.2.2 * b.2.2

/-- Product of the TRANSPOSE of a 3x3 matrix (given by rows) with a column
vector: cam_m[0:3,0:3].T @ w. -/
def mulTransp (R : Vec3 × Vec3 × Vec3) (w : Vec3) : Vec3 :=
  vadd (vadd (vsmul w.1 R.1) (vsmul w.2.1 R.2.1)) (vsmul w.2.2 R.2.2)

structure PointPicker where
  p : List Vec3
  camR : Vec3 × Vec3 × Vec3
  camT : Vec3
  screen_dims : ℚ × ℚ
  pixel_scale : ℚ × ℚ

/-- Camera position in world coordinates:
o = - cam_m[0:3,0:3].T @ cam_m[0:3,3:4]. -/
def rayOrigin (pp : PointPicker) : Vec3 :=
  vneg (mulTransp pp.camR pp.camT)

/-- World-space pick-ray direction for a clicked pixel:
posxy_cam = (posxy - screen_dims/2) * pixel_scale, then
v = cam_m[0:3,0:3].T @ [posxy_cam[0], posxy_cam[1], -1]. -/
def rayDir (pp : PointPicker) (posxy : ℚ × ℚ) : Vec3 :=
  mulTransp pp.camR
    ((posxy.1 - pp.screen_dims.1 / 2) * pp.pixel_scale.1,
     (posxy.2 - pp.screen_dims.2 / 2) * pp.pixel_scale.2, -1)

/-- Signed ray parameter of a point, t = (v.T @ (q - o)) / (v.T @ v), the
least-squares projection onto the ray r = v * t + o. -/
def tParam (o v q : Vec3) : ℚ :=
  vdot v (vsub q o) / vdot v v

/-- Squared perpendicular distance of a point to the infinite ray,
dist^2 = |(q - o) - v * t|^2. -/
def distSq (o v q : Vec3) : ℚ :=
  let w := vsub (vsub q o) (vsmul (tParam o v q) v)
  vdot w w

/-- Squared angular distance, (dist / t)^2 as computed on the survivors. -/
def angleDistSq (o v q : Vec3) : ℚ :=
  distSq o v q / (tParam o v q) ^ 2

/-- Membership test of the source filter
in_view_tol = (t > cam_min_view_distance) & (angle_dist < selection_angle_tol)
with the source's constants cam_min_view_distance = 0 and
selection_angle_tol = 0.01.  The angular comparison is kept in squared form
(dist^2 < 0.01^2 * t^2), which for t > 0 is equivalent to dist / t < 0.01;
for t <= 0 the conjunction is false either way. -/
def pickBool (pp : PointPicker) (posxy : ℚ × ℚ) (i : Nat) : Bool :=
  decide (0 < tParam (rayOrigin pp) (rayDir pp posxy) (pp.p.getD i (0, 0, 0))) &&
  decide (distSq (rayOrigin pp) (rayDir pp posxy) (pp.p.getD i (0, 0, 0)) <
    (1 / 100) ^ 2 * (tParam (rayOrigin pp) (rayDir pp posxy) (pp.p.getD i (0, 0, 0))) ^ 2)

/-- ID_selected = np.flatnonzero(in_view_tol): the surviving indices in
increasing order. -/
def pickSel (pp : PointPicker) (posxy : ℚ × ℚ) : List Nat :=
  (List.range pp.p.length).filter (pickBool pp posxy)

/-- Squared angular distance of cloud point i, the quantity minimised by
np.argmin (order-equivalent to angle_dist on the survivors). -/
def pickASq (pp : PointPicker) (posxy : ℚ × ℚ) (i : Nat) : ℚ :=
  angleDistSq (rayOrigin pp) (rayDir pp posxy) (pp.p.getD i (0, 0, 0))

/-- PointPicker.PickAt (src lines 635-668): filter the cloud to the in-view,
in-tolerance indices and return the first index attaining the minimal
angular distance together with its coordinates, exactly like np.argmin over
the surviving subsequence; an empty survivor set yields none (the source
returns an empty index array and an empty coordinate slice). -/
def PointPicker.PickAt (pp : PointPicker) (posxy : ℚ × ℚ) : Option (Nat × Vec3) :=
  match pickSel pp posxy with
  | [] => none
  | i0 :: rest =>
    let best := rest.foldl (fun b i2 =>
      if pickASq pp posxy i2 < pickASq pp posxy b then i2 else b) i0
    some (best, pp.p.getD best (0, 0, 0))

/-- A point qualifies for selection (the wording of the claim): its signed
ray parameter exceeds the minimum view distance 0 and its angular distance —
perpendicular distance to the ray divided by t, over the reals — is under
the tolerance 0.01. -/
def PickQualifies (pp : PointPicker) (posxy : ℚ × ℚ) (i : Nat) : Prop :=
  0 < tParam (rayOrigin pp) (rayDir pp posxy) (pp.p.getD i (0, 0, 0)) ∧
  Real.sqrt (distSq (rayOrigin pp) (rayDir pp posxy) (pp.p.getD i (0, 0, 0))) /
      (tParam (rayOrigin pp) (rayDir pp posxy) (pp.p.getD i (0, 0, 0)) : ℝ) <
    1 / 100

/-- Real angular distance of point i is at most that of point j. -/
def AngularLE (pp : PointPicker) (posxy : ℚ × ℚ) (i j : Nat) : Prop :=
  Real.sqrt (distSq (rayOrigin pp) (rayDir pp posxy) (pp.p.getD i (0, 0, 0))) /
      (tParam (rayOrigin pp) (rayDir pp posxy) (pp.p.getD i (0, 0, 0)) : ℝ) ≤
    Real.sqrt (distSq (rayOrigin pp) (rayDir pp posxy) (pp.p.getD j (0, 0, 0))) /
      (tParam (rayOrigin pp) (rayDir pp posxy) (pp.p.getD j (0, 0, 0)) : ℝ)

theorem vdot_self_nonneg (a : Vec3) : 0 ≤ vdot a a := by
  unfold vdot
  have h1 := mul_self_nonneg a.1
  have h2 := mul_self_nonneg a.2.1
  have h3 := mul_self_nonneg a.2.2
  linarith

theorem distSq_nonneg (o v q : Vec3) : 0 ≤ distSq o v q := by
  unfold distSq
  exact vdot_self_nonneg _

theorem angle_lt_iff (t d : ℚ) (ht : 0 < t) :
    Real.sqrt (d : ℝ) / (t : ℝ) < 1 / 100 ↔ d < (1 / 100) ^ 2 * t ^ 2 := by
  have ht2 : (0 : ℝ) < (t : ℝ) := by exact_mod_cast ht
  rw [div_lt_iff₀ ht2, Real.sqrt_lt' (by positivity), mul_pow,
    show ((1 : ℝ) / 100) = ((1 / 100 : ℚ) : ℝ) by norm_num]
  exact_mod_cast Iff.rfl

theorem pickBool_iff (pp : PointPicker) (posxy : ℚ × ℚ) (i : Nat) :
    pickBool pp posxy i = true ↔ PickQualifies pp posxy i := by
  unfold pickBool PickQualifies
  rw [Bool.and_eq_true, decide_eq_true_iff, decide_eq_true_iff]
  constructor
  · rintro ⟨h1, h2⟩
    exact ⟨h1, (angle_lt_iff _ _ h1).mpr h2⟩
  · rintro ⟨h1, h2⟩
    exact ⟨h1, (angle_lt_iff _ _ h1).mp h2⟩

theorem foldlMin_mem (f : Nat → ℚ) (rest : List Nat) (i0 : Nat) :
    rest.foldl (fun b i2 => if f i2 < f b then i2 else b) i0 ∈ i0 :: rest := by
  induction rest generalizing i0 with
  | nil => simp
  | cons r rest ih =>
      simp only [List.foldl_cons]
      by_cases hc : f r < f i0
      · rw [if_pos hc]
        exact List.mem_cons_of_mem i0 (ih r)
      · rw [if_neg hc]
        rcases List.mem_cons.mp (ih i0) with he | hm
        · exact List.mem_cons.mpr (Or.inl he)
        · exact List.mem_cons_of_mem i0 (List.mem_cons_of_mem r hm)

theorem foldlMin_le (f : Nat → ℚ) :
    ∀ (rest : List Nat) (i0 j : Nat), j ∈ i0 :: rest →
      f (rest.foldl (fun b i2 => if f i2 < f b then i2 else b) i0) ≤ f j := by
  intro rest
  induction rest with
  | nil =>
      intro i0 j hj
      simp only [List.mem_singleton] at hj
      subst hj
      simp
  | cons r rest ih =>
      intro i0 j hj
      simp only [List.foldl_cons]
      by_cases hc : f r < f i0
      · rw [if_pos hc]
        rcases List.mem_cons.mp hj with he | hm
        · rw [he]
          exact le_trans (ih r r (List.mem_cons_self r rest)) hc.le
        · exact ih r j hm
      · rw [if_neg hc]
        rcases List.mem_cons.mp hj with he | hm
        · rw [he]
          exact ih i0 i0 (List.mem_cons_self i0 rest)
        · rcases List.mem_cons.mp hm with he2 | hm2
          · rw [he2]
            exact le_trans (ih i0 i0 (List.mem_cons_self i0 rest)) (not_lt.mp hc)
          · exact ih i0 j (List.mem_cons_of_mem i0 hm2)

theorem sqrt_angleDistSq (t d : ℚ) (ht : 0 < t) (hd : 0 ≤ d) :
    Real.sqrt ((d / t ^ 2 : ℚ) : ℝ) = Real.sqrt (d : ℝ) / (t : ℝ) := by
  push_cast
  rw [Real.sqrt_div (by exact_mod_cast hd) _]
  rw [Real.sqrt_sq (by exact_mod_cast ht.le)]

theorem angularLE_of_sq (pp : PointPicker) (posxy : ℚ × ℚ) (i j : Nat)
    (hti : 0 < tParam (rayOrigin pp) (rayDir pp posxy) (pp.p.getD i (0, 0, 0)))
    (htj : 0 < tParam (rayOrigin pp) (rayDir pp posxy) (pp.p.getD j (0, 0, 0)))
    (h : pickASq pp posxy i ≤ pickASq pp posxy j) :
    AngularLE pp posxy i j := by
  unfold AngularLE
  unfold pickASq angleDistSq at h
  rw [← sqrt_angleDistSq _ _ hti (distSq_nonneg _ _ _),
    ← sqrt_angleDistSq _ _ htj (distSq_nonneg _ _ _)]
  apply Real.sqrt_le_sqrt
  exact_mod_cast h

/-- C4: PickAt considers exactly the cloud points whose signed ray parameter
t (least-squares projection onto the pick ray) exceeds the minimum view
distance 0 and whose angular distance — perpendicular distance to the ray
divided by t, over the reals — is under the fixed tolerance 0.01; when no
point qualifies it returns none (a valid empty result, not an error), and
when it returns some (i, pt), i is a qualifying in-range index whose
coordinates are pt and whose angular distance is minimal among all
qualifying points. -/
theorem pickAt_spec (pp : PointPicker) (posxy : ℚ × ℚ) :
    (pp.PickAt posxy = none ↔ ∀ i, i < pp.p.length → ¬ PickQualifies pp posxy i) ∧
    (∀ i pt, pp.PickAt posxy = some (i, pt) →
      i < pp.p.length ∧ pt = pp.p.getD i (0, 0, 0) ∧ PickQualifies pp posxy i ∧
      ∀ j, j < pp.p.length → PickQualifies pp posxy j → AngularLE pp posxy i j) := by
  have hmemsel : ∀ i, i ∈ pickSel pp posxy ↔ i < pp.p.length ∧ PickQualifies pp posxy i := by
    intro i
    unfold pickSel
    rw [List.mem_filter, List.mem_range, pickBool_iff]
  constructor
  · constructor
    · intro hnone i hi hq
      cases hsel : pickSel pp posxy with
      | nil =>
          have hmem : i ∈ pickSel pp posxy := (hmemsel i).mpr ⟨hi, hq⟩
          rw [hsel] at hmem
          simp at hmem
      | cons a rest =>
          unfold PointPicker.PickAt at hnone
          rw [hsel] at hnone
          simp at hnone
    · intro hall
      cases hsel : pickSel pp posxy with
      | nil =>
          unfold PointPicker.PickAt
          rw [hsel]
      | cons a rest =>
          exfalso
          have ha : a ∈ pickSel pp posxy := by
            rw [hsel]
            exact List.mem_cons_self a rest
          obtain ⟨hlt, hq⟩ := (hmemsel a).mp ha
          exact hall a hlt hq
  · intro i pt hsome
    cases hsel : pickSel pp posxy with
    | nil =>
        unfold PointPicker.PickAt at hsome
        rw [hsel] at hsome
        simp at hsome
    | cons i0 rest =>
        unfold PointPicker.PickAt at hsome
        rw [hsel] at hsome
        simp only [Option.some.injEq, Prod.mk.injEq] at hsome
        obtain ⟨hbi, hpt⟩ := hsome
        have hbest_mem : (rest.foldl (fun b i2 =>
            if pickASq pp posxy i2 < pickASq pp posxy b then i2 else b) i0) ∈
            i0 :: rest := foldlMin_mem (pickASq pp posxy) rest i0
        rw [hbi] at hbest_mem
        rw [← hsel] at hbest_mem
        obtain ⟨hlt, hq⟩ := (hmemsel i).mp hbest_mem
        refine ⟨hlt, ?_, hq, ?_⟩
        · rw [← hpt, hbi]
        · intro j hj hqj
          have hjmem : j ∈ i0 :: rest := by
            rw [← hsel]
            exact (hmemsel j).mpr ⟨hj, hqj⟩
          have hle := foldlMin_le (pickASq pp posxy) rest i0 j hjmem
          rw [hbi] at hle
          exact angularLE_of_sq pp posxy i j hq.1 hqj.1 hle

/-- Example picker: identity camera at the origin, 4x4 screen, pixel scale
1/2; the cloud has an on-axis point at depth 5 and one far off-axis. -/
def exPicker : PointPicker :=
  { p := [(0, 0, -5), (10, 0, -5)],
    camR := ((1, 0, 0), (0, 1, 0), (0, 0, 1)),
    camT := (0, 0, 0),
    screen_dims := (4, 4),
    pixel_scale := (1/2, 1/2) }

theorem exPicker_pickAt_eval : exPicker.PickAt (2, 2) = some (0, (0, 0, -5)) := by
  unfold PointPicker.PickAt pickSel pickBool
  norm_num [exPicker, rayOrigin, rayDir, mulTransp, vadd, vsmul, vneg, vdot,
    vsub, tParam, distSq, List.range_succ]

/-- Witness for C4: on the example picker, clicking the screen centre picks
the on-axis point with index 0, which qualifies and is minimal. -/
theorem pickAt_spec_witness :
    exPicker.PickAt (2, 2) = some (0, (0, 0, -5)) ∧
    (0 < exPicker.p.length ∧ (0, 0, -5) = exPicker.p.getD 0 (0, 0, 0) ∧
      PickQualifies exPicker (2, 2) 0 ∧
      ∀ j, j < exPicker.p.length → PickQualifies exPicker (2, 2) j →
        AngularLE exPicker (2, 2) 0 j) :=
  ⟨exPicker_pickAt_eval,
   (pickAt_spec exPicker (2, 2)).2 0 (0, 0, -5) exPicker_pickAt_eval⟩
